import Mathlib

set_option maxRecDepth 40000
set_option linter.unusedTactic false

/-!
Verification development for the dbui SQL script engine.

The TypeScript sources are embedded shallowly:
JavaScript strings are Lean `String`s (`List Char` underneath), JavaScript
runtime values flowing through the result grid are the inductive `JSValue`
(`vnull` covers both `null` and `undefined`, which the engine never
distinguishes; `vobj json str` carries a plain object's or array's
`JSON.stringify` image and its `String(...)` image), `Array.prototype.join`
is `jsJoin`, `Array.prototype.indexOf` composed with an index access is
`colValue` (an absent column name or an out-of-range index yields
`undefined`, hence `vnull`), and `Map` iteration order is an explicit
association list.
-/

/-- Runtime value model for grid cells. -/
inductive JSValue where
  | vnull : JSValue
  | vstr : String → JSValue
  | vbool : Bool → JSValue
  | vint : Int → JSValue
  | vobj : String → String → JSValue
deriving DecidableEq

/-- Model of JavaScript `String(v)` / template-literal interpolation. -/
def jsString : JSValue → String
  | .vnull => "null"
  | .vstr s => s
  | .vbool b => if b then "true" else "false"
  | .vint n => toString n
  | .vobj _ str => str

/-- Model of `value.replace(/'/g, "''")` at the character level. -/
def escQ : List Char → List Char
  | [] => []
  | c :: rest => if c = '\'' then '\'' :: '\'' :: escQ rest else c :: escQ rest

/-- Model of `value.replace(/'/g, "''")` on strings. -/
def escapeQuotes (s : String) : String :=
  String.mk (escQ s.data)

/-- Model of `Array.prototype.join(sep)`. -/
def jsJoin (sep : String) : List String → String
  | [] => ""
  | [x] => x
  | x :: xs => x ++ sep ++ jsJoin sep xs

/-- Model of `row[columns.indexOf(pk)]`: JavaScript `indexOf` returns `-1`
when absent and an out-of-range index access yields `undefined`. -/
def colValue (columns : List String) (row : List JSValue) (pk : String) : JSValue :=
  match columns.indexOf? pk with
  | none => JSValue.vnull
  | some i => row.getD i JSValue.vnull

/-- ASCII whitespace characters, used for both `trim` and `\s`. -/
def isWs (c : Char) : Bool :=
  c = ' ' || c = '\t' || c = '\n' || c = '\r' || c = Char.ofNat 11 || c = Char.ofNat 12

/-- Word characters: the regex classes `\w` and `[a-zA-Z0-9_]`. -/
def isWordChar (c : Char) : Bool :=
  ('a' ≤ c && c ≤ 'z') || ('A' ≤ c && c ≤ 'Z') || ('0' ≤ c && c ≤ '9') || c = '_'

/-- Model of `String.prototype.trim` over ASCII whitespace. -/
def trimChars (l : List Char) : List Char :=
  ((l.dropWhile isWs).reverse.dropWhile isWs).reverse

namespace DQ

/-- Embeds `ParsedDelete` from `src/lib/deleteQueryGenerator.ts`. -/
structure ParsedDelete where
  table : String
  schema : String
  conditions : List String
deriving DecidableEq

/-- Embeds `formatValue` from `src/lib/deleteQueryGenerator.ts`. -/
def formatValue (value : JSValue) : String :=
  match value with
  | .vnull => "IS NULL"
  | .vstr s => "= '" ++ escapeQuotes s ++ "'"
  | .vbool b => "= " ++ (if b then "true" else "false")
  | v => "= " ++ jsString v

/-- Embeds `buildCondition` from `src/lib/deleteQueryGenerator.ts`. -/
def buildCondition (pkColumns columns : List String) (row : List JSValue) : String :=
  let conditions := pkColumns.map (fun pk =>
    let value := colValue columns row pk
    let formattedValue := formatValue value
    if formattedValue = "IS NULL" then pk ++ " IS NULL" else pk ++ " " ++ formattedValue)
  "(" ++ jsJoin " AND " conditions ++ ")"

/-- Embeds the WHERE-clause layout
`conditions.map((cond, i) => (i === 0 ? cond : "   OR " + cond)).join("\n")`
shared by `generateDeleteQuery` and `mergeDeleteQuery`. -/
def whereJoin (conditions : List String) : String :=
  jsJoin "\n" (conditions.mapIdx (fun i cond => if i = 0 then cond else "   OR " ++ cond))

/-- Embeds the final template of `generateDeleteQuery` and `mergeDeleteQuery`. -/
def serializeDelete (schema table : String) (conditions : List String) : String :=
  "DELETE FROM " ++ schema ++ "." ++ table ++ "\nWHERE " ++ whereJoin conditions ++ ";"

/-- Embeds `generateDeleteQuery` from `src/lib/deleteQueryGenerator.ts`. -/
def generateDeleteQuery (table schema : String) (pkColumns columns : List String)
    (rows : List (List JSValue)) : String :=
  serializeDelete schema table (rows.map (buildCondition pkColumns columns))

end DQ

namespace UQ

/-- Embeds `RowEdit` from `updateQueryGenerator.ts`; `changes` is the
insertion-ordered content of the `Map<number, unknown>`. -/
structure RowEdit where
  rowIndex : Nat
  originalRow : List JSValue
  changes : List (Nat × JSValue)

/-- Embeds `formatValue` from `updateQueryGenerator.ts` (SET-clause values). -/
def formatValue (value : JSValue) : String :=
  match value with
  | .vnull => "NULL"
  | .vstr s => "'" ++ escapeQuotes s ++ "'"
  | .vbool b => if b then "true" else "false"
  | v => jsString v

/-- Embeds `formatWhereValue` from `updateQueryGenerator.ts`. -/
def formatWhereValue (value : JSValue) : String :=
  match value with
  | .vnull => "IS NULL"
  | .vstr s => "= '" ++ escapeQuotes s ++ "'"
  | .vbool b => "= " ++ (if b then "true" else "false")
  | v => "= " ++ jsString v

/-- Embeds `${columns[colIndex]}`: an out-of-range index interpolates as
the string `undefined`. -/
def colName (columns : List String) (colIndex : Nat) : String :=
  (columns.get? colIndex).getD "undefined"

/-- Embeds the per-edit statement construction inside `generateUpdateQuery`. -/
def updateStatement (table schema : String) (pkColumns columns : List String)
    (edit : RowEdit) : String :=
  let setClauses := edit.changes.map (fun pc => colName columns pc.1 ++ " = " ++ formatValue pc.2)
  let whereClauses := pkColumns.map (fun pk =>
    let pkValue := colValue columns edit.originalRow pk
    let formatted := formatWhereValue pkValue
    if formatted = "IS NULL" then pk ++ " IS NULL" else pk ++ " " ++ formatted)
  "UPDATE " ++ schema ++ "." ++ table ++ " SET " ++ jsJoin ", " setClauses ++
    " WHERE " ++ jsJoin " AND " whereClauses ++ ";"

/-- Embeds `generateUpdateQuery` from `updateQueryGenerator.ts`. -/
def generateUpdateQuery (table schema : String) (pkColumns columns : List String)
    (edits : List RowEdit) : String :=
  jsJoin "\n" (edits.map (updateStatement table schema pkColumns columns))

end UQ

namespace AppM

/-- Embeds `getWhereColumns` from `src/App.tsx`. -/
def getWhereColumns (rows : List (List JSValue)) (columns pkCols : List String) :
    List String :=
  if pkCols.isEmpty then columns
  else
    let hasNullPk := rows.any (fun row =>
      pkCols.any (fun pk => colValue columns row pk == JSValue.vnull))
    if hasNullPk then columns else pkCols

end AppM

namespace DQ

/-- Case-insensitive character comparison (the regex `i` flag). -/
def charIEq (a b : Char) : Bool := a.toLower = b.toLower

/-- Consume a keyword literal case-insensitively. -/
def matchInsens : List Char → List Char → Option (List Char)
  | [], s => some s
  | _ :: _, [] => none
  | l :: ls, c :: cs => if charIEq l c then matchInsens ls cs else none

/-- Consume `\s+`: at least one whitespace character, maximal run. -/
def ws1 : List Char → Option (List Char)
  | [] => none
  | c :: rest => if isWs c then some (rest.dropWhile isWs) else none

/-- Consume `(\w+)`: a nonempty maximal word-character run. -/
def word1 (s : List Char) : Option (List Char × List Char) :=
  match s.takeWhile isWordChar with
  | [] => none
  | w => some (w, s.dropWhile isWordChar)

/-- Deterministic equivalent, on trimmed input, of the anchored match
`DELETE\s+FROM\s+(\w+)\.(\w+)\s+WHERE\s+(.+);?` with flags `is`: each
greedy piece has a forced extent because `\w`, `\s` and the keyword
letters are pairwise disjoint character classes, and the greedy `(.+)`
together with the optional `;?` always captures the whole remainder
(including any trailing semicolon). -/
def matchDeleteHead (s : List Char) : Option ((List Char × List Char) × List Char) :=
  match matchInsens "DELETE".data s with
  | none => none
  | some s1 =>
  match ws1 s1 with
  | none => none
  | some s2 =>
  match matchInsens "FROM".data s2 with
  | none => none
  | some s3 =>
  match ws1 s3 with
  | none => none
  | some s4 =>
  match word1 s4 with
  | none => none
  | some (schema, s5) =>
  match s5 with
  | '.' :: s6 =>
    (match word1 s6 with
    | none => none
    | some (table, s7) =>
    match ws1 s7 with
    | none => none
    | some s8 =>
    match matchInsens "WHERE".data s8 with
    | none => none
    | some s9 =>
    match ws1 s9 with
    | none => none
    | some s10 =>
    if s10.isEmpty then none else some ((schema, table), s10))
  | _ => none

/-- Fuelled model of the global scan `\(([^)]+)\)` (flag `g`): at each `(`
the greedy `[^)]+` runs to the next `)`; an empty group `()` cannot match
and the scan resumes one character later; once no `)` remains no further
match is possible. The fuel bounds the number of characters consumed. -/
def extractCondsF : Nat → List Char → List String
  | 0, _ => []
  | _ + 1, [] => []
  | fuel + 1, c :: rest =>
    if c = '(' then
      let inner := rest.takeWhile (fun x => x ≠ ')')
      match rest.dropWhile (fun x => x ≠ ')') with
      | [] => []
      | _ :: tail =>
        if inner.isEmpty then extractCondsF fuel rest
        else String.mk ('(' :: (inner ++ [')'])) :: extractCondsF fuel tail
    else extractCondsF fuel rest

/-- Conditions extracted from a WHERE clause by the global paren scan. -/
def extractConds (s : List Char) : List String :=
  extractCondsF s.length s

/-- Embeds `parseDeleteQuery` from `src/lib/deleteQueryGenerator.ts`. -/
def parseDeleteQuery (query : String) : Option ParsedDelete :=
  let normalized := trimChars query.data
  match matchDeleteHead normalized with
  | none => none
  | some ((schema, table), whereClause) =>
    let conditions := extractConds whereClause
    if conditions.isEmpty then none
    else some { table := String.mk table, schema := String.mk schema, conditions := conditions }

/-- Embeds `mergeDeleteQuery` from `src/lib/deleteQueryGenerator.ts`. -/
def mergeDeleteQuery (existingQuery : String) (newConditions : List String) :
    Option String :=
  match parseDeleteQuery existingQuery with
  | none => none
  | some parsed =>
    let uniqueNew := newConditions.filter (fun cond => !(parsed.conditions.contains cond))
    some (serializeDelete parsed.schema parsed.table (parsed.conditions ++ uniqueNew))

/-- Well-formed condition string: a single parenthesized group `(body)`
with a nonempty body free of `)` — the exact shape the paren scan of
`parseDeleteQuery` emits and reparses unchanged. -/
def wfCond (s : String) : Bool :=
  match s.data with
  | c :: rest =>
    (c == '(') && !rest.dropLast.isEmpty && (rest.getLast? == some ')') &&
      rest.dropLast.all (fun x => !(x == ')'))
  | _ => false

end DQ

namespace ED

/-- Statement record produced by `getQueryRangeAtCursor` in
`src/components/QueryEditor.tsx`: trimmed text plus buffer offsets. -/
structure Stmt where
  query : String
  start : Nat
  endPos : Nat
deriving DecidableEq

/-- Mutable locals of the splitting loop in `getQueryRangeAtCursor`. -/
structure SplitState where
  queries : List Stmt
  currentQuery : List Char
  queryStart : Nat
  inSingleQuote : Bool
  inDollarQuote : Bool
  dollarQuoteTag : List Char
deriving DecidableEq

/-- Fuelled transliteration of the character loop of `getQueryRangeAtCursor`
(`for (let i = 0; i < doc.length; i++)`), including the in-loop index jumps
past dollar-quote tags and escaped quotes. The index strictly increases at
every step, so `doc.length + 1` fuel always reaches the loop exit. -/
def splitLoop (doc : List Char) : Nat → Nat → SplitState → SplitState
  | 0, _, st => st
  | fuel + 1, i, st =>
    if i < doc.length then
      let c := doc.getD i ' '
      let st1 : SplitState := { st with currentQuery := st.currentQuery ++ [c] }
      if c = '$' ∧ st.inSingleQuote = false then
        if st.inDollarQuote = false then
          let wordRun := (doc.drop (i + 1)).takeWhile isWordChar
          let j := i + 1 + wordRun.length
          if j < doc.length ∧ doc.getD j ' ' = '$' then
            splitLoop doc fuel (j + 1)
              { st1 with
                currentQuery := st1.currentQuery ++ (doc.drop (i + 1)).take (j - i),
                inDollarQuote := true,
                dollarQuoteTag := '$' :: (wordRun ++ ['$']) }
          else
            splitLoop doc fuel (i + 1) st1
        else
          let tl := st.dollarQuoteTag.length
          if (doc.drop i).take tl = st.dollarQuoteTag then
            splitLoop doc fuel (i + tl)
              { st1 with
                currentQuery := st1.currentQuery ++ (doc.drop (i + 1)).take (tl - 1),
                inDollarQuote := false,
                dollarQuoteTag := [] }
          else
            splitLoop doc fuel (i + 1) st1
      else if c = '\'' ∧ st.inDollarQuote = false then
        if st.inSingleQuote then
          if i + 1 < doc.length ∧ doc.getD (i + 1) ' ' = '\'' then
            splitLoop doc fuel (i + 2)
              { st1 with currentQuery := st1.currentQuery ++ [doc.getD (i + 1) ' '] }
          else
            splitLoop doc fuel (i + 1) { st1 with inSingleQuote := false }
        else
          splitLoop doc fuel (i + 1) { st1 with inSingleQuote := true }
      else if c = ';' ∧ st.inSingleQuote = false ∧ st.inDollarQuote = false then
        splitLoop doc fuel (i + 1)
          { queries :=
              st.queries ++ [⟨String.mk (trimChars st1.currentQuery), st.queryStart, i + 1⟩],
            currentQuery := [],
            queryStart := i + 1,
            inSingleQuote := st.inSingleQuote,
            inDollarQuote := st.inDollarQuote,
            dollarQuoteTag := st.dollarQuoteTag }
      else
        splitLoop doc fuel (i + 1) st1
    else
      st

/-- Loop state at the exit of the splitting loop. -/
def finalState (doc : String) : SplitState :=
  splitLoop doc.data (doc.data.length + 1) 0 ⟨[], [], 0, false, false, []⟩

/-- Statement sequence of `getQueryRangeAtCursor`, including the end-of-buffer
push `if (currentQuery.trim()) queries.push({..., end: doc.length})`. -/
def splitStatements (doc : String) : List Stmt :=
  let st := finalState doc
  if trimChars st.currentQuery ≠ [] then
    st.queries ++ [⟨String.mk (trimChars st.currentQuery), st.queryStart, doc.data.length⟩]
  else
    st.queries

/-- Embeds the cursor-resolution tail of `getQueryRangeAtCursor`: the first
statement whose inclusive offset range contains the cursor. -/
def getQueryRangeAtCursor (doc : String) (cursorPos : Nat) : Option Stmt :=
  (splitStatements doc).find? (fun q => decide (q.start ≤ cursorPos ∧ cursorPos ≤ q.endPos))

/-- Statement records chain contiguously from offset `a` to offset `b`:
each start abuts the previous end and every statement is nonempty. -/
def chainFrom : List Stmt → Nat → Nat → Prop
  | [], a, b => a = b
  | q :: qs, a, b => q.start = a ∧ q.start < q.endPos ∧ chainFrom qs q.endPos b

end ED

theorem mapIdxConstEq {α β : Type} (g : α → β) :
    ∀ l : List α, (l.mapIdx fun _ a => g a) = l.map g := by
  intro l
  induction l with
  | nil => rfl
  | cons a as ih =>
    rw [List.mapIdx_cons, List.map_cons]
    exact congrArg (List.cons (g a)) ih

theorem join_or_shift : ∀ (rest : List String) (c : String),
    jsJoin "\n" (c :: rest.map (fun x => "   OR " ++ x)) = jsJoin "\n   OR " (c :: rest) := by
  intro rest
  have hd : ∀ X : List Char, "\n".data ++ ("   OR ".data ++ X) = "\n   OR ".data ++ X := by
    intro X
    rw [← List.append_assoc]
    congr 1
  induction rest with
  | nil => intro c; rfl
  | cons d rs ih =>
    intro c
    rw [List.map_cons]
    show c ++ "\n" ++ jsJoin "\n" (("   OR " ++ d) :: rs.map (fun x => "   OR " ++ x)) =
      jsJoin "\n   OR " (c :: d :: rs)
    rw [ih ("   OR " ++ d)]
    cases rs with
    | nil =>
      apply String.ext
      simp [jsJoin, String.data_append, List.append_assoc, hd]
    | cons e es =>
      apply String.ext
      simp [jsJoin, String.data_append, List.append_assoc, hd]

theorem whereJoin_eq (conds : List String) :
    DQ.whereJoin conds = jsJoin "\n   OR " conds := by
  cases conds with
  | nil => rfl
  | cons c rest =>
    unfold DQ.whereJoin
    rw [List.mapIdx_cons]
    have h0 : (if (0 : Nat) = 0 then c else "   OR " ++ c) = c := if_pos rfl
    have h1 : (rest.mapIdx fun i cond =>
        if i + 1 = 0 then cond else "   OR " ++ cond) =
        rest.map (fun x => "   OR " ++ x) := by
      have hfun : (fun (i : Nat) (cond : String) =>
          if i + 1 = 0 then cond else "   OR " ++ cond) =
          (fun (_ : Nat) (cond : String) => "   OR " ++ cond) := by
        funext i cond
        simp
      rw [hfun, mapIdxConstEq]
    rw [h0, h1, join_or_shift]

/-- C1: the predicate column set for generated DELETE/UPDATE WHERE clauses is
chosen once per row batch: all columns when `pkColumns` is empty, all columns
when any row has a null/undefined value at any primary-key column position,
and exactly `pkColumns` otherwise; in particular any null in a PK position
forces the full column list. -/
theorem C1_pk_null_fallback :
    ∀ (rows : List (List JSValue)) (columns pkCols : List String),
      (pkCols = [] → AppM.getWhereColumns rows columns pkCols = columns) ∧
      ((∃ row ∈ rows, ∃ pk ∈ pkCols, colValue columns row pk = JSValue.vnull) →
        AppM.getWhereColumns rows columns pkCols = columns) ∧
      (pkCols ≠ [] →
        (∀ row ∈ rows, ∀ pk ∈ pkCols, colValue columns row pk ≠ JSValue.vnull) →
        AppM.getWhereColumns rows columns pkCols = pkCols) := by
  intro rows columns pkCols
  refine ⟨fun h => by simp [AppM.getWhereColumns, h], ?_, ?_⟩
  · intro hex
    obtain ⟨row, hrow, pk, hpk, hv⟩ := hex
    have hne : pkCols.isEmpty = false := by
      cases pkCols with
      | nil => exact absurd hpk (List.not_mem_nil pk)
      | cons a l => rfl
    have hany : (rows.any fun row =>
        pkCols.any fun pk => colValue columns row pk == JSValue.vnull) = true := by
      rw [List.any_eq_true]
      refine ⟨row, hrow, ?_⟩
      rw [List.any_eq_true]
      exact ⟨pk, hpk, by rw [hv]; exact beq_self_eq_true JSValue.vnull⟩
    simp [AppM.getWhereColumns, hne, hany]
  · intro hne hall
    have hne' : pkCols.isEmpty = false := by
      cases pkCols with
      | nil => exact absurd rfl hne
      | cons a l => rfl
    have hany : (rows.any fun row =>
        pkCols.any fun pk => colValue columns row pk == JSValue.vnull) = false := by
      rw [List.any_eq_false]
      intro row hrow h
      rw [List.any_eq_true] at h
      obtain ⟨pk, hpk, hbeq⟩ := h
      exact hall row hrow pk hpk (by simpa using hbeq)
    simp [AppM.getWhereColumns, hne', hany]

/-- Witness for C1 at a concrete batch with a null in the PK position. -/
theorem C1_pk_null_fallback_witness :
    (∃ row ∈ [[JSValue.vnull, JSValue.vstr "x"]], ∃ pk ∈ ["id"],
      colValue ["id", "name"] row pk = JSValue.vnull) ∧
    AppM.getWhereColumns [[JSValue.vnull, JSValue.vstr "x"]] ["id", "name"] ["id"] =
      ["id", "name"] :=
  ⟨⟨[JSValue.vnull, JSValue.vstr "x"], by decide, "id", by decide, by decide⟩,
    (C1_pk_null_fallback [[JSValue.vnull, JSValue.vstr "x"]] ["id", "name"] ["id"]).2.1
      ⟨[JSValue.vnull, JSValue.vstr "x"], by decide, "id", by decide, by decide⟩⟩

/-- C4 counterexample: on a plain array value (JSON image `[1,2]`, string
image `1,2`), the SET-clause formatter of the UPDATE builder does not emit
the quoted-and-escaped JSON encoding the claim requires — it falls through
to the `String(v)` branch. -/
theorem C4_counterexample :
    UQ.formatValue (JSValue.vobj "[1,2]" "1,2") = "1,2" ∧
    UQ.formatValue (JSValue.vobj "[1,2]" "1,2") ≠
      "'" ++ escapeQuotes "[1,2]" ++ "'" := by
  exact ⟨rfl, by decide⟩

/-- C4 (amended): the SET-clause value formatter maps null/undefined to
`NULL`, a string to its single-quoted form with quotes doubled, a boolean
to the bare token `true`/`false`, and everything else — including plain
objects and arrays — to `String(v)`; there is no JSON-encoding branch. -/
theorem C4_formatValue_amended :
    (UQ.formatValue JSValue.vnull = "NULL") ∧
    (∀ s, UQ.formatValue (JSValue.vstr s) = "'" ++ escapeQuotes s ++ "'") ∧
    (∀ b, UQ.formatValue (JSValue.vbool b) = if b then "true" else "false") ∧
    (∀ n, UQ.formatValue (JSValue.vint n) = toString n) ∧
    (∀ json str, UQ.formatValue (JSValue.vobj json str) = str) :=
  ⟨rfl, fun _ => rfl, fun _ => rfl, fun _ => rfl, fun _ _ => rfl⟩

/-- C6: the UPDATE builder emits one independent statement per RowEdit,
newline-joined in input order; each SET clause renders exactly the change
set in iteration order and each WHERE clause is built from the original
row values only. The concrete composite-key scenario evaluates as claimed. -/
theorem C6_update_builder :
    (∀ table schema pkColumns columns edits,
      UQ.generateUpdateQuery table schema pkColumns columns edits =
        jsJoin "\n" (edits.map (UQ.updateStatement table schema pkColumns columns))) ∧
    (∀ table schema pkColumns columns edit,
      UQ.updateStatement table schema pkColumns columns edit =
        "UPDATE " ++ schema ++ "." ++ table ++ " SET " ++
          jsJoin ", " (edit.changes.map fun pc =>
            UQ.colName columns pc.1 ++ " = " ++ UQ.formatValue pc.2) ++
          " WHERE " ++
          jsJoin " AND " (pkColumns.map fun pk =>
            let formatted := UQ.formatWhereValue (colValue columns edit.originalRow pk)
            if formatted = "IS NULL" then pk ++ " IS NULL" else pk ++ " " ++ formatted) ++
          ";") ∧
    UQ.generateUpdateQuery "order_items" "sales" ["order_id", "product_id"]
      ["order_id", "product_id", "quantity"]
      [⟨0, [JSValue.vint 100, JSValue.vint 5, JSValue.vint 2], [(2, JSValue.vint 10)]⟩] =
      "UPDATE sales.order_items SET quantity = 10 WHERE order_id = 100 AND product_id = 5;" :=
  ⟨fun _ _ _ _ _ => rfl, fun _ _ _ _ _ => rfl, by decide⟩

/-- C7: the DELETE builder joins one parenthesized AND-joined condition per
row with `OR` continuation lines indented by three spaces, omits the OR
lines for a single row, and is a pure function of its arguments; the
concrete single-row scenario evaluates as claimed. -/
theorem C7_delete_builder :
    (∀ table schema pkColumns columns rows,
      DQ.generateDeleteQuery table schema pkColumns columns rows =
        "DELETE FROM " ++ schema ++ "." ++ table ++ "\nWHERE " ++
          jsJoin "\n   OR " (rows.map (DQ.buildCondition pkColumns columns)) ++ ";") ∧
    (∀ pkColumns columns row,
      DQ.buildCondition pkColumns columns row =
        "(" ++ jsJoin " AND " (pkColumns.map fun pk =>
          let formattedValue := DQ.formatValue (colValue columns row pk)
          if formattedValue = "IS NULL" then pk ++ " IS NULL"
          else pk ++ " " ++ formattedValue) ++ ")") ∧
    (∀ table schema pkColumns columns row,
      DQ.generateDeleteQuery table schema pkColumns columns [row] =
        "DELETE FROM " ++ schema ++ "." ++ table ++ "\nWHERE " ++
          DQ.buildCondition pkColumns columns row ++ ";") ∧
    DQ.generateDeleteQuery "users" "public" ["id"] ["id", "name"]
      [[JSValue.vint 1, JSValue.vstr "Alice"]] =
      "DELETE FROM public.users\nWHERE (id = 1);" := by
  refine ⟨?_, fun _ _ _ => rfl, ?_, by decide⟩
  · intro t s pk cols rows
    unfold DQ.generateDeleteQuery DQ.serializeDelete
    rw [whereJoin_eq]
  · intro t s pk cols row
    unfold DQ.generateDeleteQuery DQ.serializeDelete
    rw [whereJoin_eq]
    rfl

/-- C9: texts that do not match the generated-DELETE shape (a SELECT, a
DELETE without a parenthesized condition group, a DELETE without FROM) make
`parseDeleteQuery` return none, and `mergeDeleteQuery` then returns none as
well — the recognition-failure path carries only optional results. -/
theorem C9_parse_failure_is_none :
    DQ.parseDeleteQuery "SELECT * FROM users;" = none ∧
    DQ.parseDeleteQuery "DELETE FROM public.users WHERE id = 1;" = none ∧
    DQ.parseDeleteQuery "DELETE users WHERE id = 1;" = none ∧
    (∀ t c, DQ.parseDeleteQuery t = none → DQ.mergeDeleteQuery t c = none) := by
  refine ⟨by decide, by decide, by decide, ?_⟩
  intro t c h
  unfold DQ.mergeDeleteQuery
  rw [h]

/-- Witness for C9 on a concrete unrecognized text. -/
theorem C9_witness :
    DQ.parseDeleteQuery "SELECT 1;" = none ∧
    DQ.mergeDeleteQuery "SELECT 1;" ["(id = 1)"] = none :=
  ⟨by decide, C9_parse_failure_is_none.2.2.2 "SELECT 1;" ["(id = 1)"] (by decide)⟩

theorem word_not_ws (c : Char) (h : isWordChar c = true) : isWs c = false := by
  cases hws : isWs c with
  | false => rfl
  | true =>
    exfalso
    unfold isWs at hws
    simp only [Bool.or_eq_true, decide_eq_true_eq] at hws
    rcases hws with ((((h1 | h1) | h1) | h1) | h1) | h1 <;> subst h1 <;>
      exact absurd h (by decide)

theorem takeWhile_all_append (p : Char → Bool) :
    ∀ (w : List Char) (c : Char) (r : List Char),
      (∀ x ∈ w, p x = true) → p c = false →
      (w ++ c :: r).takeWhile p = w ∧ (w ++ c :: r).dropWhile p = c :: r := by
  intro w
  induction w with
  | nil =>
    intro c r _ hc
    exact ⟨by simp [List.takeWhile_cons, hc], by simp [List.dropWhile_cons, hc]⟩
  | cons a as ih =>
    intro c r hw hc
    have ha : p a = true := hw a (List.mem_cons_self a as)
    have hrec := ih c r (fun x hx => hw x (List.mem_cons_of_mem a hx)) hc
    exact ⟨by simp [List.takeWhile_cons, ha, hrec.1],
      by simp [List.dropWhile_cons, ha, hrec.2]⟩

theorem matchInsens_refl : ∀ (l r : List Char), DQ.matchInsens l (l ++ r) = some r := by
  intro l
  induction l with
  | nil => intro r; rfl
  | cons c cs ih => intro r; simp [DQ.matchInsens, DQ.charIEq, ih]

theorem dropWhile_cons_head (l : List Char) (c : Char) (hc : isWs c = false) :
    (c :: l).dropWhile isWs = c :: l := by
  simp [List.dropWhile_cons, hc]

theorem trimChars_eq_self (l : List Char)
    (h1 : ∀ hd, l.head? = some hd → isWs hd = false)
    (h2 : ∀ la, l.getLast? = some la → isWs la = false) :
    trimChars l = l := by
  unfold trimChars
  have e1 : l.dropWhile isWs = l := by
    cases l with
    | nil => rfl
    | cons a as => exact dropWhile_cons_head as a (h1 a rfl)
  rw [e1]
  have e2 : l.reverse.dropWhile isWs = l.reverse := by
    cases hrev : l.reverse with
    | nil => rfl
    | cons a as =>
      have hla : l.getLast? = some a := by
        rw [← List.head?_reverse, hrev]
        rfl
      exact dropWhile_cons_head as a (h2 a hla)
  rw [e2, List.reverse_reverse]

theorem wfCond_elim (s : String) (h : DQ.wfCond s = true) :
    ∃ inner, inner ≠ [] ∧ (∀ c ∈ inner, c ≠ ')') ∧ s.data = '(' :: (inner ++ [')']) := by
  unfold DQ.wfCond at h
  cases hd : s.data with
  | nil => rw [hd] at h; exact absurd h (by decide)
  | cons c rest =>
    rw [hd] at h
    simp only [Bool.and_eq_true, beq_iff_eq, Bool.not_eq_true', List.all_eq_true] at h
    obtain ⟨⟨⟨hc, hne⟩, hlast⟩, hall⟩ := h
    subst hc
    have hrestne : rest ≠ [] := by
      intro hnil
      rw [hnil] at hlast
      exact absurd hlast (by decide)
    refine ⟨rest.dropLast, ?_, ?_, ?_⟩
    · intro hnil
      rw [hnil] at hne
      exact absurd hne (by decide)
    · intro x hx
      have := hall x hx
      simp only [beq_eq_false_iff_ne, ne_eq] at this
      exact this
    · have hg : rest.getLast hrestne = ')' := by
        have hq := List.getLast?_eq_getLast rest hrestne
        rw [hq] at hlast
        exact Option.some_injective _ hlast
      conv_lhs => rw [← List.dropLast_append_getLast hrestne]
      rw [hg]

theorem wfCond_intro (inner : List Char) (hne : inner ≠ [])
    (hni : ∀ c ∈ inner, c ≠ ')') :
    DQ.wfCond (String.mk ('(' :: (inner ++ [')']))) = true := by
  unfold DQ.wfCond
  have h1 : inner.isEmpty = false := by
    cases inner with
    | nil => exact absurd rfl hne
    | cons a as => rfl
  have h2 : inner.all (fun x => !(x == ')')) = true := by
    rw [List.all_eq_true]
    intro x hx
    simpa using hni x hx
  simp [List.dropLast_concat, List.getLast?_concat, h1, h2]

theorem extractF_nil (f : Nat) : DQ.extractCondsF f [] = [] := by cases f <;> rfl

theorem extractF_skip (f : Nat) (c : Char) (rest : List Char) (hc : ¬ c = '(') :
    DQ.extractCondsF (f + 1) (c :: rest) = DQ.extractCondsF f rest := by
  simp only [DQ.extractCondsF, if_neg hc]

theorem extractF_noclose (f : Nat) (rest : List Char)
    (hdw : rest.dropWhile (fun x => x ≠ ')') = []) :
    DQ.extractCondsF (f + 1) ('(' :: rest) = [] := by
  simp only [DQ.extractCondsF, if_pos rfl, hdw]
  simp

theorem extractF_empty_group (f : Nat) (rest : List Char) (x : Char) (tail : List Char)
    (hdw : rest.dropWhile (fun x => x ≠ ')') = x :: tail)
    (hin : rest.takeWhile (fun x => x ≠ ')') = []) :
    DQ.extractCondsF (f + 1) ('(' :: rest) = DQ.extractCondsF f rest := by
  simp only [DQ.extractCondsF, if_pos rfl, hdw, hin]
  rfl

theorem extractF_group (f : Nat) (rest : List Char) (x : Char) (tail inner : List Char)
    (hdw : rest.dropWhile (fun x => x ≠ ')') = x :: tail)
    (hin : rest.takeWhile (fun x => x ≠ ')') = inner) (hne : inner ≠ []) :
    DQ.extractCondsF (f + 1) ('(' :: rest) =
      String.mk ('(' :: (inner ++ [')'])) :: DQ.extractCondsF f tail := by
  have hie : inner.isEmpty = false := by
    cases inner with
    | nil => exact absurd rfl hne
    | cons a as => rfl
  simp only [DQ.extractCondsF, if_pos rfl, hdw, hin, hie]
  rfl

theorem dropWhile_cons_length (p : Char → Bool) (rest : List Char) (x : Char)
    (tail : List Char) (hdw : rest.dropWhile p = x :: tail) :
    tail.length + 1 ≤ rest.length := by
  have h1 : (x :: tail).length ≤ rest.length := by
    rw [← hdw]
    exact List.Sublist.length_le (List.dropWhile_sublist p)
  simpa using h1

theorem extractCondsF_fuel : ∀ (f g : Nat) (l : List Char),
    l.length ≤ f → l.length ≤ g → DQ.extractCondsF f l = DQ.extractCondsF g l := by
  intro f
  induction f with
  | zero =>
    intro g l hf _
    have hnil : l = [] := List.eq_nil_of_length_eq_zero (Nat.le_zero.mp hf)
    subst hnil
    rw [extractF_nil, extractF_nil]
  | succ f ih =>
    intro g l hf hg
    cases l with
    | nil => rw [extractF_nil, extractF_nil]
    | cons c rest =>
      cases g with
      | zero => exact absurd hg (by simp)
      | succ g =>
        have hrf : rest.length ≤ f := by
          have := hf
          simp only [List.length_cons] at this
          omega
        have hrg : rest.length ≤ g := by
          have := hg
          simp only [List.length_cons] at this
          omega
        by_cases hc : c = '('
        · subst hc
          cases hdw : rest.dropWhile (fun x => x ≠ ')') with
          | nil => rw [extractF_noclose f rest hdw, extractF_noclose g rest hdw]
          | cons x tail =>
            have htail : tail.length + 1 ≤ rest.length :=
              dropWhile_cons_length _ rest x tail hdw
            cases hin : rest.takeWhile (fun x => x ≠ ')') with
            | nil =>
              rw [extractF_empty_group f rest x tail hdw hin,
                extractF_empty_group g rest x tail hdw hin]
              exact ih g rest hrf hrg
            | cons a as =>
              rw [extractF_group f rest x tail (a :: as) hdw hin (by simp),
                extractF_group g rest x tail (a :: as) hdw hin (by simp)]
              have h1 : tail.length ≤ f := by omega
              have h2 : tail.length ≤ g := by omega
              rw [ih g tail h1 h2]
        · rw [extractF_skip f c rest hc, extractF_skip g c rest hc]
          exact ih g rest hrf hrg

theorem extract_skip (x : Char) (l : List Char) (hx : ¬ x = '(') :
    DQ.extractConds (x :: l) = DQ.extractConds l := by
  unfold DQ.extractConds
  show DQ.extractCondsF (l.length + 1) (x :: l) = _
  rw [extractF_skip l.length x l hx]

theorem extract_no_paren (l : List Char) (h : ∀ c ∈ l, c ≠ '(') :
    DQ.extractConds l = [] := by
  induction l with
  | nil => rfl
  | cons a as ih =>
    rw [extract_skip a as (h a (List.mem_cons_self a as))]
    exact ih (fun c hc => h c (List.mem_cons_of_mem a hc))

theorem extract_append_no_paren (pre l : List Char) (h : ∀ c ∈ pre, c ≠ '(') :
    DQ.extractConds (pre ++ l) = DQ.extractConds l := by
  induction pre with
  | nil => rfl
  | cons a as ih =>
    rw [List.cons_append, extract_skip a (as ++ l) (h a (List.mem_cons_self a as))]
    exact ih (fun c hc => h c (List.mem_cons_of_mem a hc))

theorem extract_group (inner rest : List Char) (hne : inner ≠ [])
    (hni : ∀ c ∈ inner, c ≠ ')') :
    DQ.extractConds ('(' :: (inner ++ ')' :: rest)) =
      String.mk ('(' :: (inner ++ [')'])) :: DQ.extractConds rest := by
  unfold DQ.extractConds
  have hsplit := takeWhile_all_append (fun x => x ≠ ')') inner ')' rest
    (fun x hx => by simpa using hni x hx) (by simp)
  show DQ.extractCondsF ((inner ++ ')' :: rest).length + 1) ('(' :: (inner ++ ')' :: rest)) = _
  rw [extractF_group ((inner ++ ')' :: rest).length) (inner ++ ')' :: rest) ')' rest inner
    hsplit.2 hsplit.1 hne]
  rw [extractCondsF_fuel ((inner ++ ')' :: rest).length) rest.length rest
    (by simp; omega) (le_refl _)]

theorem extractCondsF_wf : ∀ (f : Nat) (l : List Char) (s : String),
    s ∈ DQ.extractCondsF f l → DQ.wfCond s = true := by
  intro f
  induction f with
  | zero =>
    intro l s h
    rw [show DQ.extractCondsF 0 l = [] from rfl] at h
    exact absurd h (List.not_mem_nil s)
  | succ f ih =>
    intro l s h
    cases l with
    | nil =>
      rw [extractF_nil] at h
      exact absurd h (List.not_mem_nil s)
    | cons c rest =>
      by_cases hc : c = '('
      · subst hc
        cases hdw : rest.dropWhile (fun x => x ≠ ')') with
        | nil =>
          rw [extractF_noclose f rest hdw] at h
          exact absurd h (List.not_mem_nil s)
        | cons x tail =>
          cases hin : rest.takeWhile (fun x => x ≠ ')') with
          | nil =>
            rw [extractF_empty_group f rest x tail hdw hin] at h
            exact ih rest s h
          | cons a as =>
            rw [extractF_group f rest x tail (a :: as) hdw hin (by simp)] at h
            rcases List.mem_cons.mp h with heq | hmem
            · subst heq
              apply wfCond_intro (a :: as) (by simp)
              intro y hy
              have hy' : y ∈ rest.takeWhile (fun x => x ≠ ')') := by
                rw [hin]
                exact hy
              have hdec := List.mem_takeWhile_imp hy'
              simpa using hdec
            · exact ih tail s hmem
      · rw [extractF_skip f c rest hc] at h
        exact ih rest s h

theorem extract_join : ∀ (conds : List String),
    (∀ s ∈ conds, DQ.wfCond s = true) →
    DQ.extractConds ((jsJoin "\n   OR " conds).data ++ [';']) = conds := by
  intro conds
  induction conds with
  | nil =>
    intro _
    exact extract_no_paren _ (by decide)
  | cons c cr ih =>
    intro hwf
    obtain ⟨inner, hne, hni, hdata⟩ := wfCond_elim c (hwf c (List.mem_cons_self c cr))
    cases cr with
    | nil =>
      show DQ.extractConds (c.data ++ [';']) = [c]
      rw [hdata, List.cons_append, List.append_assoc]
      rw [show ([')'] ++ [';'] : List Char) = ')' :: [';'] from rfl]
      rw [extract_group inner [';'] hne hni]
      rw [extract_no_paren [';'] (by decide)]
      rw [← hdata]
    | cons d ds =>
      show DQ.extractConds
          ((c ++ "\n   OR " ++ jsJoin "\n   OR " (d :: ds)).data ++ [';']) = c :: d :: ds
      rw [String.data_append, String.data_append, hdata]
      simp only [List.cons_append, List.append_assoc, List.singleton_append]
      rw [extract_group inner _ hne hni]
      simp only [List.nil_append]
      rw [show '\n' :: ' ' :: ' ' :: ' ' :: 'O' :: 'R' :: ' ' ::
            ((jsJoin "\n   OR " (d :: ds)).data ++ [';']) =
          ['\n', ' ', ' ', ' ', 'O', 'R', ' '] ++
            ((jsJoin "\n   OR " (d :: ds)).data ++ [';']) from rfl]
      rw [extract_append_no_paren ['\n', ' ', ' ', ' ', 'O', 'R', ' '] _ (by decide)]
      rw [ih (fun s hs => hwf s (List.mem_cons_of_mem c hs))]
      rw [← hdata]

theorem ws1_cons (c : Char) (rest : List Char) (h : isWs c = true) :
    DQ.ws1 (c :: rest) = some (rest.dropWhile isWs) := by
  simp [DQ.ws1, h]

theorem word1_append (w : List Char) (c : Char) (r : List Char)
    (hw1 : w ≠ []) (hw2 : ∀ x ∈ w, isWordChar x = true) (hc : isWordChar c = false) :
    DQ.word1 (w ++ c :: r) = some (w, c :: r) := by
  have h := takeWhile_all_append isWordChar w c r hw2 hc
  unfold DQ.word1
  rw [h.1, h.2]
  cases w with
  | nil => exact absurd rfl hw1
  | cons a as => rfl

theorem matchDeleteHead_serial (sc tc : Char) (sl tl : List Char)
    (hs2 : ∀ c ∈ sc :: sl, isWordChar c = true)
    (ht2 : ∀ c ∈ tc :: tl, isWordChar c = true)
    (wtl : List Char) :
    DQ.matchDeleteHead
      (['D', 'E', 'L', 'E', 'T', 'E'] ++ ' ' :: (['F', 'R', 'O', 'M'] ++ ' ' ::
        ((sc :: sl) ++ '.' :: ((tc :: tl) ++ '\n' :: (['W', 'H', 'E', 'R', 'E'] ++ ' ' ::
          (('(' :: wtl) ++ [';'])))))) =
      some ((sc :: sl, tc :: tl), ('(' :: wtl) ++ [';']) := by
  have e1 := matchInsens_refl ['D', 'E', 'L', 'E', 'T', 'E']
    (' ' :: (['F', 'R', 'O', 'M'] ++ ' ' :: ((sc :: sl) ++ '.' ::
      ((tc :: tl) ++ '\n' :: (['W', 'H', 'E', 'R', 'E'] ++ ' ' :: (('(' :: wtl) ++ [';']))))))
  have e2 : DQ.ws1 (' ' :: (['F', 'R', 'O', 'M'] ++ ' ' :: ((sc :: sl) ++ '.' ::
      ((tc :: tl) ++ '\n' :: (['W', 'H', 'E', 'R', 'E'] ++ ' ' :: (('(' :: wtl) ++ [';'])))))) =
      some (['F', 'R', 'O', 'M'] ++ ' ' :: ((sc :: sl) ++ '.' ::
      ((tc :: tl) ++ '\n' :: (['W', 'H', 'E', 'R', 'E'] ++ ' ' :: (('(' :: wtl) ++ [';']))))) := by
    rw [ws1_cons _ _ (by decide)]
    rfl
  have e3 := matchInsens_refl ['F', 'R', 'O', 'M']
    (' ' :: ((sc :: sl) ++ '.' ::
      ((tc :: tl) ++ '\n' :: (['W', 'H', 'E', 'R', 'E'] ++ ' ' :: (('(' :: wtl) ++ [';'])))))
  have e4 : DQ.ws1 (' ' :: ((sc :: sl) ++ '.' ::
      ((tc :: tl) ++ '\n' :: (['W', 'H', 'E', 'R', 'E'] ++ ' ' :: (('(' :: wtl) ++ [';']))))) =
      some ((sc :: sl) ++ '.' ::
      ((tc :: tl) ++ '\n' :: (['W', 'H', 'E', 'R', 'E'] ++ ' ' :: (('(' :: wtl) ++ [';'])))) := by
    rw [ws1_cons _ _ (by decide), List.cons_append,
      dropWhile_cons_head _ sc (word_not_ws sc (hs2 sc (List.mem_cons_self sc sl))),
      ← List.cons_append]
  have e5 : DQ.word1 ((sc :: sl) ++ '.' ::
      ((tc :: tl) ++ '\n' :: (['W', 'H', 'E', 'R', 'E'] ++ ' ' :: (('(' :: wtl) ++ [';'])))) =
      some ((sc :: sl), '.' ::
      ((tc :: tl) ++ '\n' :: (['W', 'H', 'E', 'R', 'E'] ++ ' ' :: (('(' :: wtl) ++ [';'])))) :=
    word1_append _ _ _ (by simp) hs2 (by decide)
  have e6 : DQ.word1 ((tc :: tl) ++ '\n' ::
      (['W', 'H', 'E', 'R', 'E'] ++ ' ' :: (('(' :: wtl) ++ [';']))) =
      some ((tc :: tl), '\n' :: (['W', 'H', 'E', 'R', 'E'] ++ ' ' :: (('(' :: wtl) ++ [';']))) :=
    word1_append _ _ _ (by simp) ht2 (by decide)
  have e7 : DQ.ws1 ('\n' :: (['W', 'H', 'E', 'R', 'E'] ++ ' ' :: (('(' :: wtl) ++ [';']))) =
      some (['W', 'H', 'E', 'R', 'E'] ++ ' ' :: (('(' :: wtl) ++ [';'])) := by
    rw [ws1_cons _ _ (by decide)]
    rfl
  have e8 := matchInsens_refl ['W', 'H', 'E', 'R', 'E'] (' ' :: (('(' :: wtl) ++ [';']))
  have e9 : DQ.ws1 (' ' :: (('(' :: wtl) ++ [';'])) = some (('(' :: wtl) ++ [';']) := by
    rw [ws1_cons _ _ (by decide), List.cons_append,
      dropWhile_cons_head _ '(' (by decide), ← List.cons_append]
  simp only [List.cons_append] at e1 e2 e3 e4 e5 e6 e7 e8 e9 ⊢
  simp only [DQ.matchDeleteHead, e1, e2, e3, e4, e5, e6, e7, e8, e9,
    List.isEmpty_cons, Bool.false_eq_true, if_false]

theorem whereJoin_data_head (c0 : String) (cr : List String) (tl0 : List Char)
    (h0 : c0.data = '(' :: tl0) :
    ∃ wtl, (DQ.whereJoin (c0 :: cr)).data = '(' :: wtl := by
  rw [whereJoin_eq]
  cases cr with
  | nil =>
    exact ⟨tl0, by rw [show jsJoin "\n   OR " [c0] = c0 from rfl, h0]⟩
  | cons d ds =>
    refine ⟨tl0 ++ ("\n   OR ".data ++ (jsJoin "\n   OR " (d :: ds)).data), ?_⟩
    rw [show jsJoin "\n   OR " (c0 :: d :: ds) =
        c0 ++ "\n   OR " ++ jsJoin "\n   OR " (d :: ds) from rfl]
    rw [String.data_append, String.data_append, h0]
    simp [List.append_assoc]

theorem parse_serialize (schema table : String) (conds : List String)
    (hs1 : schema.data ≠ []) (hs2 : ∀ c ∈ schema.data, isWordChar c = true)
    (ht1 : table.data ≠ []) (ht2 : ∀ c ∈ table.data, isWordChar c = true)
    (hc1 : conds ≠ []) (hc2 : ∀ s ∈ conds, DQ.wfCond s = true) :
    DQ.parseDeleteQuery (DQ.serializeDelete schema table conds) =
      some ⟨table, schema, conds⟩ := by
  obtain ⟨c0, cr, hcs⟩ : ∃ c0 cr, conds = c0 :: cr := by
    cases conds with
    | nil => exact absurd rfl hc1
    | cons a l => exact ⟨a, l, rfl⟩
  obtain ⟨inner0, hne0, hni0, h0⟩ := wfCond_elim c0 (hc2 c0 (by rw [hcs]; exact List.mem_cons_self c0 cr))
  obtain ⟨wtl, hwtl⟩ : ∃ wtl, (DQ.whereJoin conds).data = '(' :: wtl := by
    rw [hcs]
    exact whereJoin_data_head c0 cr _ h0
  obtain ⟨sc, sl, hsc⟩ : ∃ sc sl, schema.data = sc :: sl := by
    cases hx : schema.data with
    | nil => exact absurd hx hs1
    | cons a l => exact ⟨a, l, rfl⟩
  obtain ⟨tc, tl2, htc⟩ : ∃ tc tl2, table.data = tc :: tl2 := by
    cases hx : table.data with
    | nil => exact absurd hx ht1
    | cons a l => exact ⟨a, l, rfl⟩
  have hL : (DQ.serializeDelete schema table conds).data =
      ['D', 'E', 'L', 'E', 'T', 'E'] ++ ' ' :: (['F', 'R', 'O', 'M'] ++ ' ' ::
        ((sc :: sl) ++ '.' :: ((tc :: tl2) ++ '\n' :: (['W', 'H', 'E', 'R', 'E'] ++ ' ' ::
          (('(' :: wtl) ++ [';']))))) := by
    unfold DQ.serializeDelete
    simp only [String.data_append]
    rw [hsc, htc, hwtl]
    simp [List.append_assoc, List.cons_append, List.singleton_append]
  have htrim : trimChars (DQ.serializeDelete schema table conds).data =
      (DQ.serializeDelete schema table conds).data := by
    apply trimChars_eq_self
    · intro hd h
      rw [hL] at h
      simp only [List.cons_append, List.head?_cons, Option.some.injEq] at h
      rw [← h]
      decide
    · intro la h
      have hdl : (DQ.serializeDelete schema table conds).data =
          ("DELETE FROM " ++ schema ++ "." ++ table ++ "\nWHERE " ++
            DQ.whereJoin conds).data ++ [';'] := by
        unfold DQ.serializeDelete
        rw [String.data_append]
      rw [hdl, List.getLast?_concat, Option.some.injEq] at h
      rw [← h]
      decide
  unfold DQ.parseDeleteQuery
  rw [htrim, hL]
  dsimp only
  rw [matchDeleteHead_serial sc tc sl tl2
    (by rw [← hsc]; exact hs2) (by rw [← htc]; exact ht2) wtl]
  have hext : DQ.extractConds (('(' :: wtl) ++ [';']) = conds := by
    rw [← hwtl, whereJoin_eq]
    exact extract_join conds hc2
  simp only [hext, hcs, List.isEmpty_cons, Bool.false_eq_true, if_false]
  rw [← htc, ← hsc]

theorem word1_inv (s w r : List Char) (h : DQ.word1 s = some (w, r)) :
    w ≠ [] ∧ ∀ c ∈ w, isWordChar c = true := by
  unfold DQ.word1 at h
  cases htw : s.takeWhile isWordChar with
  | nil =>
    rw [htw] at h
    exact absurd h (by simp)
  | cons a as =>
    rw [htw] at h
    simp only [Option.some.injEq, Prod.mk.injEq] at h
    obtain ⟨h1, _⟩ := h
    subst h1
    refine ⟨by simp, ?_⟩
    intro c hc
    have hc' : c ∈ s.takeWhile isWordChar := by
      rw [htw]
      exact hc
    exact List.mem_takeWhile_imp hc'

theorem matchDeleteHead_inv (s schemaL tableL wc : List Char)
    (h : DQ.matchDeleteHead s = some ((schemaL, tableL), wc)) :
    (schemaL ≠ [] ∧ ∀ c ∈ schemaL, isWordChar c = true) ∧
    (tableL ≠ [] ∧ ∀ c ∈ tableL, isWordChar c = true) := by
  unfold DQ.matchDeleteHead at h
  cases h1 : DQ.matchInsens "DELETE".data s with
  | none => simp only [h1] at h; exact absurd h (by simp)
  | some s1 =>
  simp only [h1] at h
  cases h2 : DQ.ws1 s1 with
  | none => simp only [h2] at h; exact absurd h (by simp)
  | some s2 =>
  simp only [h2] at h
  cases h3 : DQ.matchInsens "FROM".data s2 with
  | none => simp only [h3] at h; exact absurd h (by simp)
  | some s3 =>
  simp only [h3] at h
  cases h4 : DQ.ws1 s3 with
  | none => simp only [h4] at h; exact absurd h (by simp)
  | some s4 =>
  simp only [h4] at h
  cases h5 : DQ.word1 s4 with
  | none => simp only [h5] at h; exact absurd h (by simp)
  | some p =>
  obtain ⟨schemaW, s5⟩ := p
  simp only [h5] at h
  have hws := word1_inv s4 schemaW s5 h5
  split at h
  case h_2 => exact absurd h (by simp)
  case h_1 hdead s6 =>
  cases h6 : DQ.word1 s6 with
  | none => simp only [h6] at h; exact absurd h (by simp)
  | some q =>
  obtain ⟨tableW, s7⟩ := q
  simp only [h6] at h
  have hwt := word1_inv s6 tableW s7 h6
  cases h7 : DQ.ws1 s7 with
  | none => simp only [h7] at h; exact absurd h (by simp)
  | some s8 =>
  simp only [h7] at h
  cases h8 : DQ.matchInsens "WHERE".data s8 with
  | none => simp only [h8] at h; exact absurd h (by simp)
  | some s9 =>
  simp only [h8] at h
  cases h9 : DQ.ws1 s9 with
  | none => simp only [h9] at h; exact absurd h (by simp)
  | some s10 =>
  simp only [h9] at h
  by_cases hie : s10.isEmpty = true
  · rw [if_pos hie] at h
    exact absurd h (by simp)
  · rw [if_neg hie] at h
    simp only [Option.some.injEq, Prod.mk.injEq] at h
    obtain ⟨⟨hsx, htx⟩, _⟩ := h
    subst hsx
    subst htx
    exact ⟨hws, hwt⟩

theorem parse_inv (t : String) (p : DQ.ParsedDelete)
    (h : DQ.parseDeleteQuery t = some p) :
    p.schema.data ≠ [] ∧ (∀ c ∈ p.schema.data, isWordChar c = true) ∧
    p.table.data ≠ [] ∧ (∀ c ∈ p.table.data, isWordChar c = true) ∧
    p.conditions ≠ [] ∧ (∀ s ∈ p.conditions, DQ.wfCond s = true) := by
  unfold DQ.parseDeleteQuery at h
  cases hmh : DQ.matchDeleteHead (trimChars t.data) with
  | none => simp only [hmh] at h; exact absurd h (by simp)
  | some res =>
    obtain ⟨⟨schemaL, tableL⟩, wc⟩ := res
    simp only [hmh] at h
    by_cases hie : (DQ.extractConds wc).isEmpty = true
    · rw [if_pos hie] at h
      exact absurd h (by simp)
    · rw [if_neg hie] at h
      simp only [Option.some.injEq] at h
      have hinv := matchDeleteHead_inv _ _ _ _ hmh
      subst h
      refine ⟨?_, ?_, ?_, ?_, ?_, ?_⟩
      · simpa using hinv.1.1
      · simpa using hinv.1.2
      · simpa using hinv.2.1
      · simpa using hinv.2.2
      · intro hnil
        rw [show (⟨String.mk tableL, String.mk schemaL,
          DQ.extractConds wc⟩ : DQ.ParsedDelete).conditions = DQ.extractConds wc from rfl]
          at hnil
        rw [hnil] at hie
        exact hie rfl
      · intro s hs
        exact extractCondsF_wf wc.length wc s hs

/-- C2 counterexample: the claim quantifies over arbitrary condition lists,
but merging is not idempotent for conditions that are not parenthesized
groups — with existing text `DELETE FROM s.t\nWHERE (p);` and conditions
`["a)", "(x)"]`, the second merge re-extracts only `(p)` and `(x)` and
appends `a)` after them, changing the order produced by the first merge. -/
theorem C2_counterexample :
    DQ.mergeDeleteQuery "DELETE FROM s.t\nWHERE (p);" ["a)", "(x)"] =
      some "DELETE FROM s.t\nWHERE (p)\n   OR a)\n   OR (x);" ∧
    DQ.mergeDeleteQuery "DELETE FROM s.t\nWHERE (p)\n   OR a)\n   OR (x);" ["a)", "(x)"] =
      some "DELETE FROM s.t\nWHERE (p)\n   OR (x)\n   OR a);" ∧
    ("DELETE FROM s.t\nWHERE (p)\n   OR (x)\n   OR a);" : String) ≠
      "DELETE FROM s.t\nWHERE (p)\n   OR a)\n   OR (x);" :=
  ⟨by decide, by decide, by decide⟩

/-- C2 (amended): the merge computes the union of the existing conditions
and the new ones with exact-string deduplication, existing-first, in the
standard DELETE layout; and merging is idempotent whenever every new
condition is a well-formed parenthesized group `(body)` (nonempty body
without `)`), the shape every generated condition has. -/
theorem C2_merge_idempotent :
    (∀ (t : String) (c : List String) (p : DQ.ParsedDelete),
      DQ.parseDeleteQuery t = some p →
      DQ.mergeDeleteQuery t c =
        some (DQ.serializeDelete p.schema p.table
          (p.conditions ++ c.filter (fun cond => !(p.conditions.contains cond))))) ∧
    (∀ (t : String) (c : List String) (m : String),
      (∀ s ∈ c, DQ.wfCond s = true) →
      DQ.mergeDeleteQuery t c = some m →
      DQ.mergeDeleteQuery m c = some m) := by
  have hdef : ∀ (t : String) (c : List String) (p : DQ.ParsedDelete),
      DQ.parseDeleteQuery t = some p →
      DQ.mergeDeleteQuery t c =
        some (DQ.serializeDelete p.schema p.table
          (p.conditions ++ c.filter (fun cond => !(p.conditions.contains cond)))) := by
    intro t c p hp
    unfold DQ.mergeDeleteQuery
    rw [hp]
  refine ⟨hdef, ?_⟩
  intro t c m hc hm
  cases hp : DQ.parseDeleteQuery t with
  | none =>
    rw [show DQ.mergeDeleteQuery t c = none from by
      unfold DQ.mergeDeleteQuery; rw [hp]] at hm
    exact absurd hm (by simp)
  | some p =>
    rw [hdef t c p hp] at hm
    have hmeq : m = DQ.serializeDelete p.schema p.table
        (p.conditions ++ c.filter fun cond => !(p.conditions.contains cond)) := by
      simpa using hm.symm
    obtain ⟨hs1, hs2, ht1, ht2, hcne, hcwf⟩ := parse_inv t p hp
    have hallne : (p.conditions ++ c.filter fun cond => !(p.conditions.contains cond)) ≠ [] := by
      intro hnil
      exact hcne (List.append_eq_nil.mp hnil).1
    have hallwf : ∀ s ∈ (p.conditions ++ c.filter fun cond => !(p.conditions.contains cond)),
        DQ.wfCond s = true := by
      intro s hs
      rcases List.mem_append.mp hs with h | h
      · exact hcwf s h
      · exact hc s (List.mem_of_mem_filter h)
    have hparse2 : DQ.parseDeleteQuery m =
        some ⟨p.table, p.schema,
          p.conditions ++ c.filter fun cond => !(p.conditions.contains cond)⟩ := by
      rw [hmeq]
      exact parse_serialize p.schema p.table _ hs1 hs2 ht1 ht2 hallne hallwf
    have hfilter : c.filter (fun cond =>
        !((p.conditions ++ c.filter fun cond =>
          !(p.conditions.contains cond)).contains cond)) = [] := by
      rw [List.filter_eq_nil_iff]
      intro a ha
      intro hcontra
      rw [Bool.not_eq_true'] at hcontra
      have hmem : a ∈ p.conditions ++ c.filter fun cond => !(p.conditions.contains cond) := by
        by_cases hp2 : a ∈ p.conditions
        · exact List.mem_append.mpr (Or.inl hp2)
        · refine List.mem_append.mpr (Or.inr ?_)
          refine List.mem_filter.mpr ⟨ha, ?_⟩
          have hx : p.conditions.contains a = false := by
            cases hcc : p.conditions.contains a with
            | false => rfl
            | true => exact absurd (List.elem_iff.mp hcc) hp2
          rw [hx]
          rfl
      have hctrue : (p.conditions ++ c.filter fun cond =>
          !(p.conditions.contains cond)).contains a = true := List.elem_iff.mpr hmem
      rw [hctrue] at hcontra
      exact Bool.noConfusion hcontra
    unfold DQ.mergeDeleteQuery
    rw [hparse2]
    dsimp only
    rw [hfilter, List.append_nil, hmeq]

/-- Witness for C2 on a concrete merge with a well-formed new condition. -/
theorem C2_witness :
    (∀ s ∈ ["(id = 2)"], DQ.wfCond s = true) ∧
    DQ.mergeDeleteQuery "DELETE FROM public.users\nWHERE (id = 1);" ["(id = 2)"] =
      some "DELETE FROM public.users\nWHERE (id = 1)\n   OR (id = 2);" ∧
    DQ.mergeDeleteQuery "DELETE FROM public.users\nWHERE (id = 1)\n   OR (id = 2);"
      ["(id = 2)"] = some "DELETE FROM public.users\nWHERE (id = 1)\n   OR (id = 2);" :=
  ⟨by decide, by decide,
    C2_merge_idempotent.2 "DELETE FROM public.users\nWHERE (id = 1);" ["(id = 2)"]
      "DELETE FROM public.users\nWHERE (id = 1)\n   OR (id = 2);" (by decide) (by decide)⟩

theorem splitLoop_dollar_inert (doc : List Char) : ∀ (fuel i : Nat) (st : ED.SplitState),
    st.inDollarQuote = true →
    (∀ k, i ≤ k → (doc.drop k).take st.dollarQuoteTag.length ≠ st.dollarQuoteTag) →
    (ED.splitLoop doc fuel i st).queries = st.queries ∧
    (ED.splitLoop doc fuel i st).inDollarQuote = true := by
  intro fuel
  induction fuel with
  | zero => intro i st hq _; exact ⟨rfl, hq⟩
  | succ fuel ih =>
    intro i st hq hno
    by_cases hlt : i < doc.length
    case neg =>
      unfold ED.splitLoop
      rw [if_neg hlt]
      exact ⟨rfl, hq⟩
    case pos =>
      have hstep : ED.splitLoop doc (fuel + 1) i st = ED.splitLoop doc fuel (i + 1)
          { st with currentQuery := st.currentQuery ++ [doc.getD i ' '] } := by
        conv_lhs => rw [ED.splitLoop]
        rw [if_pos hlt]
        dsimp only
        by_cases hA : (doc.getD i ' ' = '$' ∧ st.inSingleQuote = false)
        · rw [if_pos hA]
          have hB : ¬ (st.inDollarQuote = false) := by
            rw [hq]
            simp
          rw [if_neg hB]
          rw [if_neg (hno i (le_refl i))]
        · rw [if_neg hA]
          have hE : ¬ (doc.getD i ' ' = '\'' ∧ st.inDollarQuote = false) := by
            intro hx
            rw [hq] at hx
            exact Bool.noConfusion hx.2
          rw [if_neg hE]
          have hH : ¬ (doc.getD i ' ' = ';' ∧ st.inSingleQuote = false ∧
              st.inDollarQuote = false) := by
            intro hx
            rw [hq] at hx
            exact Bool.noConfusion hx.2.2
          rw [if_neg hH]
      rw [hstep]
      exact ih (i + 1)
        { st with currentQuery := st.currentQuery ++ [doc.getD i ' '] }
        hq (fun k hk => hno k (le_trans (Nat.le_succ i) hk))

/-- C3: while the tokenizer is inside a dollar-quoted region, semicolons and
all other characters are inert — as long as the opening tag does not occur
as a contiguous substring at or after the scan position, no statement
boundary is ever emitted; splitting the CREATE FUNCTION buffer with
semicolons inside `$$...$$` yields exactly one statement. -/
theorem C3_dollar_quote_containment :
    (∀ (doc : List Char) (fuel i : Nat) (st : ED.SplitState),
      st.inDollarQuote = true →
      (∀ k, i ≤ k → (doc.drop k).take st.dollarQuoteTag.length ≠ st.dollarQuoteTag) →
      (ED.splitLoop doc fuel i st).queries = st.queries) ∧
    (ED.splitStatements
      "CREATE FUNCTION f() RETURNS int AS $$ BEGIN RETURN 1; END; $$ LANGUAGE plpgsql;").length
      = 1 ∧
    ED.splitStatements
      "CREATE FUNCTION f() RETURNS int AS $$ BEGIN RETURN 1; END; $$ LANGUAGE plpgsql;" =
      [⟨"CREATE FUNCTION f() RETURNS int AS $$ BEGIN RETURN 1; END; $$ LANGUAGE plpgsql;",
        0, 79⟩] :=
  ⟨fun doc fuel i st hq hno => (splitLoop_dollar_inert doc fuel i st hq hno).1,
    by decide, by decide⟩

/-- Witness for C3: inside an open `$$` region, a buffer consisting of
semicolons produces no statement boundary at all. -/
theorem C3_witness :
    ((⟨[], [], 0, false, true, ['$', '$']⟩ : ED.SplitState).inDollarQuote = true) ∧
    (ED.splitLoop "; ;".data 4 0 ⟨[], [], 0, false, true, ['$', '$']⟩).queries = [] := by
  have hno : ∀ k, 0 ≤ k → (("; ;".data).drop k).take 2 ≠ ['$', '$'] := by
    intro k _
    match k with
    | 0 => decide
    | 1 => decide
    | 2 => decide
    | n + 3 =>
      have h3 : ("; ;".data).length ≤ n + 3 := by
        rw [show ("; ;".data).length = 3 from rfl]
        omega
      rw [List.drop_eq_nil_of_le h3]
      decide
  exact ⟨rfl, C3_dollar_quote_containment.1 "; ;".data 4 0
    ⟨[], [], 0, false, true, ['$', '$']⟩ rfl hno⟩

theorem find?_first {α : Type} (p : α → Bool) :
    ∀ (l : List α) (a : α), l.find? p = some a →
      ∃ n, l.get? n = some a ∧ p a = true ∧
        ∀ m, m < n → ∀ b, l.get? m = some b → p b = false := by
  intro l
  induction l with
  | nil => intro a h; exact absurd h (by simp)
  | cons x xs ih =>
    intro a h
    by_cases hx : p x = true
    · rw [List.find?_cons_of_pos _ hx] at h
      have hax : x = a := by simpa using h
      subst hax
      exact ⟨0, rfl, hx, fun m hm => absurd hm (Nat.not_lt_zero m)⟩
    · rw [List.find?_cons_of_neg _ hx] at h
      obtain ⟨n, h1, h2, h3⟩ := ih a h
      refine ⟨n + 1, by simpa using h1, h2, ?_⟩
      intro m hm b hb
      cases m with
      | zero =>
        have hbx : x = b := by simpa using hb
        subst hbx
        cases hpx : p x with
        | false => rfl
        | true => exact absurd hpx hx
      | succ m' =>
        exact h3 m' (Nat.lt_of_succ_lt_succ hm) b (by simpa using hb)

/-- C5: the active-statement resolver returns the first statement (in
tokenizer order) whose inclusive offset range `[start, end]` contains the
cursor and none when no statement contains it; on `"SELECT 1; SELECT 2;"`,
offset 5 resolves to `SELECT 1;` and offset 12 to `SELECT 2;`. -/
theorem C5_cursor_resolution :
    (∀ (doc : String) (off : Nat) (s : ED.Stmt),
      ED.getQueryRangeAtCursor doc off = some s →
      ∃ n, (ED.splitStatements doc).get? n = some s ∧ s.start ≤ off ∧ off ≤ s.endPos ∧
        ∀ m, m < n → ∀ t, (ED.splitStatements doc).get? m = some t →
          ¬(t.start ≤ off ∧ off ≤ t.endPos)) ∧
    (∀ (doc : String) (off : Nat),
      ED.getQueryRangeAtCursor doc off = none ↔
        ∀ s ∈ ED.splitStatements doc, ¬(s.start ≤ off ∧ off ≤ s.endPos)) ∧
    ED.getQueryRangeAtCursor "SELECT 1; SELECT 2;" 5 = some ⟨"SELECT 1;", 0, 9⟩ ∧
    ED.getQueryRangeAtCursor "SELECT 1; SELECT 2;" 12 = some ⟨"SELECT 2;", 9, 19⟩ := by
  refine ⟨?_, ?_, by decide, by decide⟩
  · intro doc off s h
    obtain ⟨n, h1, h2, h3⟩ := find?_first _ _ _ h
    refine ⟨n, h1, ?_, ?_, ?_⟩
    · exact ((decide_eq_true_eq).mp h2).1
    · exact ((decide_eq_true_eq).mp h2).2
    · intro m hm t ht hcont
      have hft := h3 m hm t ht
      rw [decide_eq_false_iff_not] at hft
      exact hft hcont
  · intro doc off
    unfold ED.getQueryRangeAtCursor
    rw [List.find?_eq_none]
    constructor
    · intro h s hs
      have := h s hs
      rw [decide_eq_true_eq] at this
      exact this
    · intro h s hs
      rw [decide_eq_true_eq]
      exact h s hs

/-- Witness for C5 at the concrete buffer and cursor offset 5. -/
theorem C5_witness :
    ∃ n, (ED.splitStatements "SELECT 1; SELECT 2;").get? n =
        some ⟨"SELECT 1;", 0, 9⟩ ∧
      (⟨"SELECT 1;", 0, 9⟩ : ED.Stmt).start ≤ 5 ∧
      5 ≤ (⟨"SELECT 1;", 0, 9⟩ : ED.Stmt).endPos ∧
      ∀ m, m < n → ∀ t, (ED.splitStatements "SELECT 1; SELECT 2;").get? m = some t →
        ¬(t.start ≤ 5 ∧ 5 ≤ t.endPos) :=
  C5_cursor_resolution.1 "SELECT 1; SELECT 2;" 5 ⟨"SELECT 1;", 0, 9⟩ (by decide)

theorem trimChars_ws (l : List Char) (h : ∀ c ∈ l, isWs c = true) : trimChars l = [] := by
  unfold trimChars
  rw [List.dropWhile_eq_nil_iff.mpr h]
  rfl

theorem getD_mem (l : List Char) (i : Nat) (hlt : i < l.length) : l.getD i ' ' ∈ l := by
  rw [List.getD_eq_getElem l ' ' hlt]
  exact List.getElem_mem hlt

theorem splitLoop_ws (doc : List Char) (hws : ∀ c ∈ doc, isWs c = true) :
    ∀ (fuel i : Nat) (st : ED.SplitState),
      (ED.splitLoop doc fuel i st).queries = st.queries ∧
      ∃ extra, (∀ c ∈ extra, isWs c = true) ∧
        (ED.splitLoop doc fuel i st).currentQuery = st.currentQuery ++ extra := by
  intro fuel
  induction fuel with
  | zero => intro i st; exact ⟨rfl, [], by simp, by rw [List.append_nil]; rfl⟩
  | succ fuel ih =>
    intro i st
    by_cases hlt : i < doc.length
    case neg =>
      unfold ED.splitLoop
      rw [if_neg hlt]
      exact ⟨rfl, [], by simp, by rw [List.append_nil]⟩
    case pos =>
      have hc : isWs (doc.getD i ' ') = true := hws _ (getD_mem doc i hlt)
      have hA : ¬ (doc.getD i ' ' = '$' ∧ st.inSingleQuote = false) := by
        intro hx
        rw [hx.1] at hc
        exact absurd hc (by decide)
      have hE : ¬ (doc.getD i ' ' = '\'' ∧ st.inDollarQuote = false) := by
        intro hx
        rw [hx.1] at hc
        exact absurd hc (by decide)
      have hH : ¬ (doc.getD i ' ' = ';' ∧ st.inSingleQuote = false ∧
          st.inDollarQuote = false) := by
        intro hx
        rw [hx.1] at hc
        exact absurd hc (by decide)
      have hstep : ED.splitLoop doc (fuel + 1) i st = ED.splitLoop doc fuel (i + 1)
          { st with currentQuery := st.currentQuery ++ [doc.getD i ' '] } := by
        conv_lhs => rw [ED.splitLoop]
        rw [if_pos hlt]
        dsimp only
        rw [if_neg hA, if_neg hE, if_neg hH]
      rw [hstep]
      obtain ⟨hq, extra, hex, hcur⟩ := ih (i + 1)
        { st with currentQuery := st.currentQuery ++ [doc.getD i ' '] }
      refine ⟨hq, doc.getD i ' ' :: extra, ?_, ?_⟩
      · intro c hcm
        rcases List.mem_cons.mp hcm with hcm | hcm
        · rw [hcm]; exact hc
        · exact hex c hcm
      · rw [hcur]
        simp

/-- C8: at end of buffer the tokenizer emits a final statement ending at the
buffer length whenever the accumulator holds non-whitespace content — even
with no terminating semicolon and even inside an unterminated single quote
or dollar quote — and an empty or whitespace-only buffer yields an empty
statement sequence. -/
theorem C8_eof_behavior :
    (∀ doc : String, (∀ c ∈ doc.data, isWs c = true) → ED.splitStatements doc = []) ∧
    (∀ doc : String, trimChars (ED.finalState doc).currentQuery ≠ [] →
      ED.splitStatements doc =
        (ED.finalState doc).queries ++
          [⟨String.mk (trimChars (ED.finalState doc).currentQuery),
            (ED.finalState doc).queryStart, doc.data.length⟩]) ∧
    ED.splitStatements "" = [] ∧
    ED.splitStatements "   " = [] ∧
    ED.splitStatements "SELECT 'unterminated" = [⟨"SELECT 'unterminated", 0, 20⟩] ∧
    ED.splitStatements "DO $tag$ x; y" = [⟨"DO $tag$ x; y", 0, 13⟩] := by
  refine ⟨?_, ?_, by decide, by decide, by decide, by decide⟩
  · intro doc hws
    obtain ⟨hq, extra, hex, hcur⟩ :=
      splitLoop_ws doc.data hws (doc.data.length + 1) 0 ⟨[], [], 0, false, false, []⟩
    unfold ED.splitStatements ED.finalState
    dsimp only
    rw [hcur]
    rw [show (⟨[], [], 0, false, false, []⟩ : ED.SplitState).currentQuery = [] from rfl,
      List.nil_append, trimChars_ws extra hex]
    simp only [ne_eq, not_true_eq_false, if_false]
    exact hq
  · intro doc hne
    unfold ED.splitStatements
    dsimp only
    rw [if_pos hne]

/-- Witness for C8: a whitespace-only buffer splits to the empty sequence,
and an unterminated buffer ends at the buffer length. -/
theorem C8_witness :
    (∀ c ∈ ("  " : String).data, isWs c = true) ∧ ED.splitStatements "  " = [] ∧
    trimChars (ED.finalState "ab").currentQuery ≠ [] ∧
    ED.splitStatements "ab" =
      (ED.finalState "ab").queries ++
        [⟨String.mk (trimChars (ED.finalState "ab").currentQuery),
          (ED.finalState "ab").queryStart, ("ab" : String).data.length⟩] :=
  ⟨by decide, C8_eof_behavior.1 "  " (by decide), by decide,
    C8_eof_behavior.2.1 "ab" (by decide)⟩

theorem chainFrom_append_one (qs : List ED.Stmt) : ∀ (a b : Nat) (q : ED.Stmt),
    ED.chainFrom qs a b → q.start = b → q.start < q.endPos →
    ED.chainFrom (qs ++ [q]) a q.endPos := by
  induction qs with
  | nil =>
    intro a b q h h1 h2
    have hab : a = b := h
    subst hab
    exact ⟨h1, h2, rfl⟩
  | cons x xs ih =>
    intro a b q h h1 h2
    obtain ⟨hx1, hx2, hx3⟩ := h
    exact ⟨hx1, hx2, ih _ _ _ hx3 h1 h2⟩

theorem chainFrom_le (qs : List ED.Stmt) : ∀ a b, ED.chainFrom qs a b → a ≤ b := by
  induction qs with
  | nil => intro a b h; exact le_of_eq h
  | cons x xs ih =>
    intro a b h
    obtain ⟨hx1, hx2, hx3⟩ := h
    have := ih _ _ hx3
    omega

theorem chainFrom_bounds (qs : List ED.Stmt) : ∀ a b, ED.chainFrom qs a b →
    ∀ q ∈ qs, q.start < q.endPos ∧ q.endPos ≤ b := by
  induction qs with
  | nil => intro a b _ q hq; exact absurd hq (List.not_mem_nil q)
  | cons x xs ih =>
    intro a b h q hq
    obtain ⟨hx1, hx2, hx3⟩ := h
    rcases List.mem_cons.mp hq with hq | hq
    · subst hq
      exact ⟨hx2, chainFrom_le xs _ _ hx3⟩
    · exact ih _ _ hx3 q hq

theorem chainFrom_head (qs : List ED.Stmt) (a b : Nat) (h : ED.chainFrom qs a b) :
    ∀ q, qs.head? = some q → q.start = a := by
  cases qs with
  | nil => intro q hq; exact absurd hq (by simp)
  | cons x xs =>
    intro q hq
    have hxq : x = q := by simpa using hq
    subst hxq
    exact h.1

theorem chainFrom_consec (qs : List ED.Stmt) : ∀ (a b n : Nat) (q q' : ED.Stmt),
    ED.chainFrom qs a b → qs.get? n = some q → qs.get? (n + 1) = some q' →
    q'.start = q.endPos := by
  induction qs with
  | nil => intro a b n q q' _ h1 _; exact absurd h1 (by simp)
  | cons x xs ih =>
    intro a b n q q' h h1 h2
    obtain ⟨hx1, hx2, hx3⟩ := h
    cases n with
    | zero =>
      have hxq : x = q := by simpa using h1
      subst hxq
      cases xs with
      | nil => exact absurd h2 (by simp)
      | cons y ys =>
        have hyq : y = q' := by simpa using h2
        subst hyq
        exact hx3.1
    | succ n' =>
      exact ih _ _ n' q q' hx3 (by simpa using h1) (by simpa using h2)

theorem splitLoop_inv (doc : List Char) : ∀ (fuel i : Nat) (st : ED.SplitState),
    i ≤ doc.length → st.queryStart ≤ i → ED.chainFrom st.queries 0 st.queryStart →
    (st.currentQuery ≠ [] → st.queryStart < doc.length) →
    (ED.splitLoop doc fuel i st).queryStart ≤ doc.length ∧
    ED.chainFrom (ED.splitLoop doc fuel i st).queries 0
      (ED.splitLoop doc fuel i st).queryStart ∧
    ((ED.splitLoop doc fuel i st).currentQuery ≠ [] →
      (ED.splitLoop doc fuel i st).queryStart < doc.length) := by
  intro fuel
  induction fuel with
  | zero => intro i st h1 h2 h3 h4; exact ⟨le_trans h2 h1, h3, h4⟩
  | succ fuel ih =>
    intro i st h1 h2 h3 h4
    by_cases hlt : i < doc.length
    case neg =>
      unfold ED.splitLoop
      rw [if_neg hlt]
      exact ⟨le_trans h2 h1, h3, h4⟩
    case pos =>
      have hqlt : st.queryStart < doc.length := lt_of_le_of_lt h2 hlt
      rw [ED.splitLoop]
      rw [if_pos hlt]
      dsimp only
      by_cases hA : (doc.getD i ' ' = '$' ∧ st.inSingleQuote = false)
      · rw [if_pos hA]
        by_cases hB : st.inDollarQuote = false
        · rw [if_pos hB]
          by_cases hC : (i + 1 + ((doc.drop (i + 1)).takeWhile isWordChar).length <
              doc.length ∧
              doc.getD (i + 1 + ((doc.drop (i + 1)).takeWhile isWordChar).length) ' ' = '$')
          · rw [if_pos hC]
            obtain ⟨hC1, _⟩ := hC
            refine ih _ _ ?_ ?_ h3 (fun _ => hqlt)
            · try dsimp only
              omega
            · try dsimp only
              omega
          · rw [if_neg hC]
            exact ih _ _ (by (try dsimp only); omega) (by (try dsimp only); omega) h3 (fun _ => hqlt)
        · rw [if_neg hB]
          by_cases hD : ((doc.drop i).take st.dollarQuoteTag.length = st.dollarQuoteTag)
          · rw [if_pos hD]
            have hlen : st.dollarQuoteTag.length ≤ doc.length - i := by
              have hcg := congrArg List.length hD
              rw [List.length_take, List.length_drop] at hcg
              omega
            refine ih _ _ ?_ ?_ h3 (fun _ => hqlt)
            · try dsimp only
              omega
            · try dsimp only
              omega
          · rw [if_neg hD]
            exact ih _ _ (by (try dsimp only); omega) (by (try dsimp only); omega) h3 (fun _ => hqlt)
      · rw [if_neg hA]
        by_cases hE : (doc.getD i ' ' = '\'' ∧ st.inDollarQuote = false)
        · rw [if_pos hE]
          by_cases hF : st.inSingleQuote = true
          · rw [if_pos hF]
            by_cases hG : (i + 1 < doc.length ∧ doc.getD (i + 1) ' ' = '\'')
            · rw [if_pos hG]
              obtain ⟨hG1, _⟩ := hG
              exact ih _ _ (by (try dsimp only); omega) (by (try dsimp only); omega) h3 (fun _ => hqlt)
            · rw [if_neg hG]
              exact ih _ _ (by (try dsimp only); omega) (by (try dsimp only); omega) h3 (fun _ => hqlt)
          · rw [if_neg hF]
            exact ih _ _ (by (try dsimp only); omega) (by (try dsimp only); omega) h3 (fun _ => hqlt)
        · rw [if_neg hE]
          by_cases hH : (doc.getD i ' ' = ';' ∧ st.inSingleQuote = false ∧
              st.inDollarQuote = false)
          · rw [if_pos hH]
            refine ih _ _ (by (try dsimp only); omega) (by (try dsimp only); omega) ?_ ?_
            · exact chainFrom_append_one st.queries 0 st.queryStart _ h3 rfl
                (Nat.lt_succ_of_le h2)
            · intro hx
              exact absurd rfl hx
          · rw [if_neg hH]
            exact ih _ _ (by (try dsimp only); omega) (by (try dsimp only); omega) h3 (fun _ => hqlt)

/-- C10: the statement sequence is contiguous and ordered — the first
statement starts at offset 0, every statement's start is strictly below its
end, each next statement starts where the previous one ends, and every end
offset is at most the buffer length. -/
theorem C10_contiguity (doc : String) :
    (∀ q, (ED.splitStatements doc).head? = some q → q.start = 0) ∧
    (∀ q ∈ ED.splitStatements doc, q.start < q.endPos ∧ q.endPos ≤ doc.data.length) ∧
    (∀ n q q', (ED.splitStatements doc).get? n = some q →
      (ED.splitStatements doc).get? (n + 1) = some q' → q'.start = q.endPos) := by
  obtain ⟨hqs, hchain, hcur⟩ := splitLoop_inv doc.data (doc.data.length + 1) 0
    ⟨[], [], 0, false, false, []⟩ (by omega) (le_refl 0) rfl (fun hx => absurd rfl hx)
  have hfull : ∃ E, E ≤ doc.data.length ∧ ED.chainFrom (ED.splitStatements doc) 0 E := by
    unfold ED.splitStatements
    dsimp only
    by_cases hne : trimChars (ED.finalState doc).currentQuery ≠ []
    · rw [if_pos hne]
      refine ⟨doc.data.length, le_refl _, ?_⟩
      refine chainFrom_append_one _ _ _ _ hchain rfl ?_
      show (ED.finalState doc).queryStart < doc.data.length
      apply hcur
      intro hnil
      apply hne
      rw [show (ED.finalState doc).currentQuery = [] from hnil]
      rfl
    · rw [if_neg hne]
      exact ⟨(ED.finalState doc).queryStart, hqs, hchain⟩
  obtain ⟨E, hE, hchainf⟩ := hfull
  refine ⟨?_, ?_, ?_⟩
  · intro q hq
    exact chainFrom_head _ _ _ hchainf q hq
  · intro q hq
    obtain ⟨hlt2, hle2⟩ := chainFrom_bounds _ _ _ hchainf q hq
    exact ⟨hlt2, le_trans hle2 hE⟩
  · intro n q q' hg1 hg2
    exact chainFrom_consec _ _ _ n q q' hchainf hg1 hg2

/-- Witness for C10 on the buffer `"a; b"`. -/
theorem C10_witness :
    ((⟨"a;", 0, 2⟩ : ED.Stmt).start = 0) ∧
    ((⟨"b", 2, 4⟩ : ED.Stmt).start < (⟨"b", 2, 4⟩ : ED.Stmt).endPos ∧
      (⟨"b", 2, 4⟩ : ED.Stmt).endPos ≤ ("a; b" : String).data.length) ∧
    ((⟨"b", 2, 4⟩ : ED.Stmt).start = (⟨"a;", 0, 2⟩ : ED.Stmt).endPos) :=
  ⟨(C10_contiguity "a; b").1 ⟨"a;", 0, 2⟩ (by decide),
    (C10_contiguity "a; b").2.1 ⟨"b", 2, 4⟩ (by decide),
    (C10_contiguity "a; b").2.2 0 ⟨"a;", 0, 2⟩ ⟨"b", 2, 4⟩ (by decide) (by decide)⟩
